import Mathlib

/-!
Verification of the KOM archive codec (kom.py).

The development shallowly embeds the codec layer of kom.py over byte
lists (`List Nat`, each element a byte value).  Machine 32-bit integers
are modelled as `Nat` with explicit `% 2 ^ 32` at the points where the
source packs them with `struct.pack`.  The external libraries used by
the source (zlib compression, zlib crc32 and minidom XML serialization
and parsing) are not part of this repository; they are modelled by a
`Codec` parameter carrying the functions together with the laws the
source relies on (decompression inverts compression, crc32 produces a
32-bit value, XML produced by the builder parses back).  Everything
else is translated directly from kom.py.
-/

/-- Byte encoding of the reserved manifest name, the ASCII string crc.xml. -/
def crcName : List Nat := [99, 114, 99, 46, 120, 109, 108]

/-- Byte encoding of the ASCII literal KOG GC TEAM MASSFILE (with
trailing space), the fixed first 21 bytes of `Kom.raw_version_fmt`. -/
def kogTag : List Nat :=
  [75, 79, 71, 32, 71, 67, 32, 84, 69, 65, 77, 32,
   77, 65, 83, 83, 70, 73, 76, 69, 32]

/-- Decimal ASCII digits of a natural number, as Python `str` renders it. -/
def natDigits (n : Nat) : List Nat :=
  (Nat.toDigits 10 n).map Char.toNat

/-- Decimal ASCII rendering of an integer, as Python `%d` formatting renders it. -/
def intDigits (v : Int) : List Nat :=
  if v < 0 then 45 :: natDigits v.natAbs else natDigits v.toNat

/-- Bytes of `Kom.version_fmt % v`, i.e. the ASCII string V.0.v. -/
def versionStrBytes (v : Nat) : List Nat :=
  [86, 46, 48, 46] ++ natDigits v ++ [46]

/-- Bytes of `Kom.raw_version_fmt % v` for a natural version number. -/
def rawVersionBytes (v : Nat) : List Nat :=
  kogTag ++ versionStrBytes v

/-- Bytes of `Kom.raw_version_fmt % v` for an arbitrary integer, as used by
the comparison in `Kom._from_kom_file`. -/
def intRawVersionBytes (v : Int) : List Nat :=
  kogTag ++ [86, 46, 48, 46] ++ intDigits v ++ [46]

/-- Little-endian 4-byte encoding of a natural number, modelling
`struct.pack` format I.  The source raises for values at or above
`2 ^ 32`; theorems therefore carry explicit bounds where it matters. -/
def packU32 (n : Nat) : List Nat :=
  [n % 256, n / 256 % 256, n / 65536 % 256, n / 16777216 % 256]

/-- Little-endian 4-byte decoding, modelling `struct.unpack` format I
applied to a 4-byte slice. -/
def unpackU32 (bs : List Nat) : Nat :=
  bs.getD 0 0 + 256 * bs.getD 1 0 + 65536 * bs.getD 2 0
    + 16777216 * bs.getD 3 0

/-- NUL-padding (and truncation) of a name to 60 bytes, modelling
`struct.pack` format 60s. -/
def packName (name : List Nat) : List Nat :=
  name.take 60 ++ List.replicate (60 - name.length) 0

/-- Padding (and truncation) of the version literal to 27 bytes, modelling
`struct.pack` format 27s. -/
def pack27 (s : List Nat) : List Nat :=
  s.take 27 ++ List.replicate (27 - s.length) 0

/-- Removal of trailing NUL bytes, modelling Python `rstrip` with a NUL
argument as used by `Entry.__init__` on a decoded name. -/
def dropTrailingZeros (l : List Nat) : List Nat :=
  (l.reverse.dropWhile (fun b => b == 0)).reverse

/-- Decoding of a raw 60-byte name field: `bytes.decode` with the ascii
codec fails when a byte is 128 or more, then trailing NUL bytes are
stripped (`Entry.__init__`). -/
def decodeName (bs : List Nat) : Option (List Nat) :=
  if bs.all (fun b => b < 128) then some (dropTrailingZeros bs) else none

/-- Lowercase hexadecimal digit byte for a value below 16, as produced by
Python `%x` formatting. -/
def hexChar (n : Nat) : Nat :=
  if n < 10 then 48 + n else 87 + n

/-- Little-endian list of hexadecimal digit bytes of a natural number. -/
def toHexLE (n : Nat) : List Nat :=
  if h : n < 16 then [hexChar n] else hexChar (n % 16) :: toHexLE (n / 16)
termination_by n
decreasing_by
  exact Nat.div_lt_self (by omega) (by omega)

/-- Bytes of Python `%08x` formatting: hexadecimal digits zero-padded on
the left to at least eight characters. -/
def pyHex08 (n : Nat) : List Nat :=
  List.replicate (8 - (toHexLE n).length) 48 ++ (toHexLE n).reverse

/-- Lexicographic less-or-equal on byte lists, matching Python string
comparison on ASCII strings (code-point order). -/
def nameLeB : List Nat → List Nat → Bool
  | [], _ => true
  | _ :: _, [] => false
  | a :: as, b :: bs =>
    if a < b then true else if b < a then false else nameLeB as bs

/-- One File Item of the crc.xml document, holding the four attribute
strings set by `Crc.append_entry`. -/
structure CrcItem where
  name : List Nat
  sizeAttr : List Nat
  versionAttr : List Nat
  checkSum : List Nat
deriving DecidableEq, Repr

/-- The crc.xml DOM built by `Crc.__init__` (without an entry argument)
and `Crc.append_entry`: a Version record and one Item per file. -/
structure CrcDoc where
  version : Nat
  items : List CrcItem
deriving DecidableEq, Repr

/-- State of the `Crc` object: built from scratch by `to_file`, or parsed
from the raw manifest payload on the load path (`_parsed` flag). -/
inductive CrcState where
  | built (d : CrcDoc)
  | parsed (xml : List Nat)
deriving DecidableEq, Repr

/-- External functions used by kom.py that live outside this repository:
zlib compress, decompress and crc32, and minidom XML serialization and
parsing.  They are abstracted as parameters together with two laws that
hold of the real libraries: decompression inverts compression and
crc32 yields a 32-bit value.  No law relates `renderXml` and
`parseStringOk`: minidom writes attribute values with ASCII control
characters unescaped and expat rejects such documents on reparse, so a
rendered manifest does not in general parse back; where a round trip
needs it, that re-parseability is an explicit hypothesis. -/
structure Codec where
  compress : List Nat → List Nat
  decompress : List Nat → Option (List Nat)
  crc32 : List Nat → Nat
  renderXml : CrcDoc → List Nat
  parseStringOk : List Nat → Bool
  decompress_compress : ∀ x, decompress (compress x) = some x
  crc32_lt : ∀ x, crc32 x < 2 ^ 32

/-- One archive entry, translating class `Entry` of kom.py.  The `data`
field holds the compressed payload.  The source keeps
`relative_offset` as None on the `from_file` path until
`_sort_entries` assigns it; that provisional state is modelled as 0,
which is never read before being overwritten. -/
structure Entry where
  name : List Nat
  uncompressed_size : Nat
  compressed_size : Nat
  relative_offset : Nat
  data : List Nat
deriving DecidableEq, Repr

/-- Default entry used with `List.getD` in statements about entry lists. -/
def dfltEntry : Entry :=
  { name := [], uncompressed_size := 0, compressed_size := 0,
    relative_offset := 0, data := [] }

/-- Default item used with `List.getD` in statements about manifest items. -/
def dfltItem : CrcItem :=
  { name := [], sizeAttr := [], versionAttr := [], checkSum := [] }

/-- The 72-byte metadata record of an entry (`Entry.packed_metadata`). -/
def Entry.packedMetadata (e : Entry) : List Nat :=
  packName e.name ++ packU32 e.uncompressed_size
    ++ packU32 e.compressed_size ++ packU32 e.relative_offset

/-- Checksum of the compressed payload (`Entry.crc32`, which applies
`zlib.crc32` to `self._data`). -/
def Entry.crcOf (c : Codec) (e : Entry) : Nat :=
  c.crc32 e.data

/-- Construction of an entry from a source byte stream
(`Entry.from_file`): the payload is compressed, `uncompressed_size` is
the source length, `compressed_size` the compressed length. -/
def Entry.fromFile (c : Codec) (name raw : List Nat) : Entry :=
  { name := name
    uncompressed_size := raw.length
    compressed_size := (c.compress raw).length
    relative_offset := 0
    data := c.compress raw }

/-- Construction of an entry from in-memory data with an explicit
relative offset (`Entry.from_data`), used for the crc.xml entry. -/
def Entry.fromData (c : Codec) (raw name : List Nat) (relOff : Nat) : Entry :=
  { name := name
    uncompressed_size := raw.length
    compressed_size := (c.compress raw).length
    relative_offset := relOff
    data := c.compress raw }

/-- Failure modes of `Kom._from_kom_file`.  The source raises builtin
exception types; `formatError` stands for any exception raised while
decoding and validating the 27-byte version field (kom.py lines
230-234), which the specification taxonomy collectively names
FormatError.  `structError` models `struct` unpacking failures on short
buffers, `unicodeError` a non-ASCII entry name, `indexError` the
`entries[-1]` access on an empty list, `zlibError` a manifest payload
that does not decompress, and `xmlError` one that does not parse. -/
inductive OpenErr where
  | structError
  | formatError
  | unicodeError
  | indexError
  | zlibError
  | xmlError
deriving DecidableEq, Repr

/-- Parsing of one 72-byte metadata record followed by slicing the data
blob (`Entry.from_kom_data` and `Entry._read`).  The slice
`raw_data[off : off + size]` clamps to the blob length exactly as the
Python slice does. -/
def Entry.fromKomData (meta blob : List Nat) : Except OpenErr Entry :=
  if meta.length < 72 then .error .structError
  else
    match decodeName (meta.take 60) with
    | none => .error .unicodeError
    | some nm =>
      let usize := unpackU32 ((meta.drop 60).take 4)
      let csize := unpackU32 ((meta.drop 64).take 4)
      let off := unpackU32 ((meta.drop 68).take 4)
      .ok { name := nm
            uncompressed_size := usize
            compressed_size := csize
            relative_offset := off
            data := (blob.drop off).take csize }

/-- Failure modes of `Kom.add_file`: the source raises `IgnoredFile` both
for the reserved name crc.xml and for a name longer than 60, and
`MultipleFilesError` for a duplicate name. -/
inductive AddErr where
  | ignoredFile (name : List Nat)
  | multipleFilesError (name : List Nat)
deriving DecidableEq, Repr

/-- Numeric tag of the exception class an `add_file` outcome carries,
used to compare error kinds. -/
def addErrKind {α : Type} : Except AddErr α → Nat
  | .ok _ => 0
  | .error (.ignoredFile _) => 1
  | .error (.multipleFilesError _) => 2

/-- The archive container, translating class `Kom` of kom.py. -/
structure Kom where
  version : Nat
  entries : List Entry
  crc : Option CrcState
  crc_entry : Option Entry
deriving DecidableEq, Repr

/-- The state `Kom.__init__` builds on the version path. -/
def Kom.empty (v : Nat) : Kom :=
  { version := v, entries := [], crc := none, crc_entry := none }

/-- Constructor dispatch of `Kom.__init__` with an integer version and no
file path: the guard `if version and not file_path` treats the integer
0 as falsy, so version 0 falls through to the bare `raise`. -/
def Kom.init (version : Nat) : Except Unit Kom :=
  if version ≠ 0 then .ok (Kom.empty version) else .error ()

/-- Container length (`Kom.__len__`): entry count plus one when a crc
entry exists, otherwise 0 (the conditional expression in the source
covers the whole sum). -/
def komLen (k : Kom) : Nat :=
  if k.crc_entry.isSome then k.entries.length + 1 else 0

/-- Addition of a named payload (`Kom.add_file` combined with
`Entry.from_file`, with the payload bytes passed directly instead of
read from the file system). -/
def Kom.addFile (c : Codec) (k : Kom) (name raw : List Nat) :
    Except AddErr Kom :=
  if name = crcName then .error (.ignoredFile name)
  else if 60 < name.length then .error (.ignoredFile name)
  else if k.entries.any (fun e => e.name == name) then
    .error (.multipleFilesError name)
  else .ok { k with entries := k.entries ++ [Entry.fromFile c name raw] }

/-- Sequential additions, keeping the previous state when a single
addition fails (mirroring a caller that skips rejected files). -/
def addAll (c : Codec) (k : Kom) (ps : List (List Nat × List Nat)) : Kom :=
  ps.foldl
    (fun k p =>
      match Kom.addFile c k p.1 p.2 with
      | .ok k2 => k2
      | .error _ => k)
    k

/-- Comparison used by `Kom._sort_entries` (`key=lambda x: x.name`). -/
def entLe (a b : Entry) : Bool :=
  nameLeB a.name b.name

/-- Offset recomputation loop of `Kom._sort_entries`: each entry receives
the running offset, which then advances by its compressed size. -/
def setOffsets : Nat → List Entry → List Entry
  | _, [] => []
  | off, e :: es =>
    { e with relative_offset := off } :: setOffsets (off + e.compressed_size) es

/-- The whole of `Kom._sort_entries`: stable sort by name (Python
`list.sort` is stable; `List.mergeSort` matches it) followed by offset
recomputation from 0. -/
def sortEntries (es : List Entry) : List Entry :=
  setOffsets 0 (es.mergeSort entLe)

/-- The `Kom._relative_offset` property: 0 for an empty entry list,
otherwise the last offset plus the last compressed size. -/
def relativeOffset (es : List Entry) : Nat :=
  match es.getLast? with
  | none => 0
  | some e => e.relative_offset + e.compressed_size

/-- The manifest item `Crc.append_entry` builds for one entry. -/
def crcItemOf (c : Codec) (e : Entry) : CrcItem :=
  { name := e.name
    sizeAttr := natDigits e.uncompressed_size
    versionAttr := [48]
    checkSum := pyHex08 (Entry.crcOf c e) }

/-- The crc.xml document `to_file` builds: `Crc.__init__` with the
archive version followed by `Crc.append_entry` on every entry in final
order. -/
def buildCrc (c : Codec) (version : Nat) (es : List Entry) : CrcDoc :=
  { version := version, items := es.map (crcItemOf c) }

/-- The 60-byte header (`struct.pack` format 27s25x2I in `Kom.to_file`):
padded version literal, 25 zero bytes, entry count including the
manifest, and the constant 1. -/
def packHeader (v n : Nat) : List Nat :=
  pack27 (rawVersionBytes v) ++ List.replicate 25 0 ++ packU32 n ++ packU32 1

/-- Serialization (`Kom.to_file`).  The source mutates the object: it
rebuilds `_crc`, sorts `_entries` in place with fresh offsets and
replaces `_crc_entry`; the result pairs the mutated state with the
emitted bytes.  The entry count is taken before sorting, which does
not change the length. -/
def Kom.toFile (c : Codec) (k : Kom) : Kom × List Nat :=
  let header := packHeader k.version (k.entries.length + 1)
  let sorted := sortEntries k.entries
  let doc := buildCrc c k.version sorted
  let crcE := Entry.fromData c (c.renderXml doc) crcName (relativeOffset sorted)
  let meta := (sorted.map Entry.packedMetadata).flatten ++ crcE.packedMetadata
  let blob := (sorted.map Entry.data).flatten ++ crcE.data
  ({ k with entries := sorted, crc := some (.built doc), crc_entry := some crcE },
   header ++ meta ++ blob)

/-- Python whitespace accepted around an integer literal by `int`. -/
def isWs (b : Nat) : Bool :=
  b == 32 || b == 9 || b == 10 || b == 11 || b == 12 || b == 13

/-- Leading and trailing whitespace stripping performed by `int`. -/
def stripWs (s : List Nat) : List Nat :=
  ((s.dropWhile isWs).reverse.dropWhile isWs).reverse

/-- Decision whether a byte is an ASCII decimal digit. -/
def isDigitB (b : Nat) : Bool :=
  48 ≤ b && b ≤ 57

/-- Digit-sequence parsing of Python `int` after the first digit:
underscores are allowed singly between digits. -/
def pyIntLoop (acc : Nat) : List Nat → Option Nat
  | [] => some acc
  | b :: bs =>
    if isDigitB b then pyIntLoop (acc * 10 + (b - 48)) bs
    else if b == 95 then
      match bs with
      | [] => none
      | b2 :: bs2 =>
        if isDigitB b2 then pyIntLoop (acc * 10 + (b2 - 48)) bs2 else none
    else none

/-- Unsigned digit-sequence parsing of Python `int`: requires a leading
digit. -/
def pyIntCore : List Nat → Option Nat
  | [] => none
  | b :: bs => if isDigitB b then pyIntLoop (b - 48) bs else none

/-- Conversion of an ASCII string to an integer, modelling Python `int`
applied to the version component: optional surrounding whitespace, an
optional sign, then digits. -/
def pyInt (s : List Nat) : Option Int :=
  match stripWs s with
  | 43 :: r => (pyIntCore r).map Int.ofNat
  | 45 :: r => (pyIntCore r).map (fun n => -(Int.ofNat n))
  | r => (pyIntCore r).map Int.ofNat

/-- Decoding and validation of the 27-byte version field (kom.py lines
230-234): ascii decode, split on the dot, `int` of the second-to-last
component, then the equality and range check.  `none` covers every
exception the source can raise in this step. -/
def parseRawVersion (field : List Nat) : Option Nat :=
  if field.all (fun b => b < 128) then
    if (field.splitOn 46).length < 2 then none
    else
      match pyInt ((field.splitOn 46).getD ((field.splitOn 46).length - 2) []) with
      | none => none
      | some v =>
        if field = intRawVersionBytes v ∧ 0 ≤ v ∧ v ≤ 5 then some v.toNat
        else none
  else none

/-- The metadata-table loop of `Kom._from_kom_file`: one 72-byte slice
per declared entry, each turned into an entry against the shared data
blob. -/
def parseEntries : Nat → List Nat → List Nat → Except OpenErr (List Entry)
  | 0, _, _ => .ok []
  | n + 1, rawEntries, rawData =>
    match Entry.fromKomData (rawEntries.take 72) rawData with
    | .error e => .error e
    | .ok ent =>
      match parseEntries n (rawEntries.drop 72) rawData with
      | .error e => .error e
      | .ok es => .ok (ent :: es)

/-- The stages of `Kom._from_kom_file` that follow the version check once
the version digit v is known: metadata table (entry count times one
72-byte record), blob slicing, the `entries[-1]` split of the manifest
entry, and the decompression and XML parse of its payload performed by
`Crc.__init__`. -/
def openKomWith (c : Codec) (bytes : List Nat) (v : Nat) : Except OpenErr Kom :=
  match parseEntries (unpackU32 ((bytes.drop 52).take 4))
      ((bytes.drop 60).take (72 * unpackU32 ((bytes.drop 52).take 4)))
      (bytes.drop (60 + 72 * unpackU32 ((bytes.drop 52).take 4))) with
  | .error e => .error e
  | .ok entries =>
    match entries.getLast? with
    | none => .error .indexError
    | some crcE =>
      match c.decompress crcE.data with
      | none => .error .zlibError
      | some xml =>
        if c.parseStringOk xml then
          .ok { version := v
                entries := entries.dropLast
                crc := some (.parsed xml)
                crc_entry := some crcE }
        else .error .xmlError

/-- Opening an archive from its bytes (`Kom._from_kom_file`): header
unpacking, version validation, then the remaining stages. -/
def Kom.openKom (c : Codec) (bytes : List Nat) : Except OpenErr Kom :=
  if bytes.length < 60 then .error .structError
  else
    match parseRawVersion (bytes.take 27) with
    | none => .error .formatError
    | some v => openKomWith c bytes v

/-- Concrete lawful instance of the external-function parameter, used by
witnesses and counterexamples: compression is the identity. -/
def idCodec : Codec :=
  { compress := fun x => x
    decompress := fun x => some x
    crc32 := fun x => x.length % 2 ^ 32
    renderXml := fun _ => []
    parseStringOk := fun _ => true
    decompress_compress := fun _ => rfl
    crc32_lt := fun _ => Nat.mod_lt _ (by norm_num) }

/-- Conditions under which a metadata record and the blob reproduce the
entry exactly on the load path. -/
def goodMeta (blob : List Nat) (e : Entry) : Prop :=
  e.name.all (fun b => b < 128) = true ∧ e.name.length ≤ 60 ∧
  e.name.getLast? ≠ some 0 ∧ e.uncompressed_size < 2 ^ 32 ∧
  e.compressed_size < 2 ^ 32 ∧ e.relative_offset < 2 ^ 32 ∧
  (blob.drop e.relative_offset).take e.compressed_size = e.data

/-- Offsets of a list of entries tile the blob starting at a base. -/
def tiles : Nat → List Entry → Prop
  | _, [] => True
  | k, e :: es => e.relative_offset = k ∧ tiles (k + e.compressed_size) es

/-- Decision whether a byte is a lowercase hexadecimal digit character. -/
def isHexLowerB (b : Nat) : Bool :=
  (48 ≤ b && b ≤ 57) || (97 ≤ b && b ≤ 102)

/-- The crc.xml entry that `to_file` appends, as a function of the state
before serialization. -/
def toFileCrcEntry (c : Codec) (k : Kom) : Entry :=
  Entry.fromData c (c.renderXml (buildCrc c k.version (sortEntries k.entries)))
    crcName (relativeOffset (sortEntries k.entries))

/-! ### Byte-level lemmas -/

theorem packU32_length (n : Nat) : (packU32 n).length = 4 := rfl

theorem packName_length (name : List Nat) : (packName name).length = 60 := by
  simp only [packName, List.length_append, List.length_take, List.length_replicate]
  omega

theorem packedMetadata_length (e : Entry) : e.packedMetadata.length = 72 := by
  simp only [Entry.packedMetadata, List.length_append, packName_length, packU32_length]

theorem unpackU32_packU32 (n : Nat) : unpackU32 (packU32 n) = n % 2 ^ 32 := by
  have h : (2 : Nat) ^ 32 = 4294967296 := by norm_num
  rw [h]
  simp only [unpackU32, packU32, List.getD_cons_zero, List.getD_cons_succ]
  omega

theorem unpackU32_packU32_of_lt (n : Nat) (h : n < 2 ^ 32) :
    unpackU32 (packU32 n) = n := by
  rw [unpackU32_packU32, Nat.mod_eq_of_lt h]

theorem dropWhile_zeros_append (k : Nat) (l : List Nat) :
    (List.replicate k 0 ++ l).dropWhile (fun b => b == 0)
      = l.dropWhile (fun b => b == 0) := by
  induction k with
  | zero => simp
  | succ k ih => simp [List.replicate_succ, ih]

theorem dropWhile_zeros_of_head (l : List Nat) (h : l.head? ≠ some 0) :
    l.dropWhile (fun b => b == 0) = l := by
  cases l with
  | nil => rfl
  | cons a t =>
    have ha : a ≠ 0 := by
      intro h0
      exact h (by simp [h0])
    rw [List.dropWhile_cons]
    simp [ha]

theorem dropTrailingZeros_append_zeros (l : List Nat) (k : Nat)
    (h : l.getLast? ≠ some 0) :
    dropTrailingZeros (l ++ List.replicate k 0) = l := by
  unfold dropTrailingZeros
  rw [List.reverse_append, List.reverse_replicate, dropWhile_zeros_append,
    dropWhile_zeros_of_head l.reverse (by rwa [List.head?_reverse]),
    List.reverse_reverse]

theorem decodeName_packName (name : List Nat)
    (h128 : name.all (fun b => b < 128) = true) (hlen : name.length ≤ 60)
    (hlast : name.getLast? ≠ some 0) :
    decodeName (packName name) = some name := by
  unfold decodeName packName
  rw [List.take_of_length_le hlen]
  have hall : (name ++ List.replicate (60 - name.length) 0).all
      (fun b => decide (b < 128)) = true := by
    rw [List.all_append, h128, Bool.true_and, List.all_eq_true]
    intro x hx
    have : x = 0 := List.eq_of_mem_replicate hx
    simp [this]
  rw [if_pos hall, dropTrailingZeros_append_zeros name _ hlast]

/-! ### Metadata parsing lemmas -/

theorem fromKomData_packedMetadata (blob : List Nat) (e : Entry)
    (h : goodMeta blob e) :
    Entry.fromKomData e.packedMetadata blob = .ok e := by
  obtain ⟨h128, hlen, hlast, hu, hc, ho, hslice⟩ := h
  unfold Entry.fromKomData
  rw [if_neg (by rw [packedMetadata_length]; omega)]
  have htake : e.packedMetadata.take 60 = packName e.name := by
    unfold Entry.packedMetadata
    rw [List.append_assoc, List.append_assoc,
      List.take_left' (packName_length e.name)]
  have hdrop : e.packedMetadata.drop 60
      = packU32 e.uncompressed_size ++ (packU32 e.compressed_size
        ++ packU32 e.relative_offset) := by
    unfold Entry.packedMetadata
    rw [List.append_assoc, List.append_assoc,
      List.drop_left' (packName_length e.name)]
  rw [htake, decodeName_packName e.name h128 hlen hlast]
  have h1 : (e.packedMetadata.drop 60).take 4 = packU32 e.uncompressed_size := by
    rw [hdrop, List.take_left' (packU32_length _)]
  have h64 : e.packedMetadata.drop 64
      = packU32 e.compressed_size ++ packU32 e.relative_offset := by
    have : e.packedMetadata.drop 64 = (e.packedMetadata.drop 60).drop 4 := by
      rw [List.drop_drop]
    rw [this, hdrop, List.drop_left' (packU32_length _)]
  have h2 : (e.packedMetadata.drop 64).take 4 = packU32 e.compressed_size := by
    rw [h64, List.take_left' (packU32_length _)]
  have h68 : e.packedMetadata.drop 68 = packU32 e.relative_offset := by
    have : e.packedMetadata.drop 68 = (e.packedMetadata.drop 64).drop 4 := by
      rw [List.drop_drop]
    rw [this, h64, List.drop_left' (packU32_length _)]
  have h3 : (e.packedMetadata.drop 68).take 4 = packU32 e.relative_offset := by
    rw [h68, List.take_of_length_le (by rw [packU32_length])]
  simp only [h1, h2, h3, unpackU32_packU32_of_lt _ hu, unpackU32_packU32_of_lt _ hc,
    unpackU32_packU32_of_lt _ ho, hslice]

theorem parseEntries_flatten (blob : List Nat) (es : List Entry)
    (h : ∀ e ∈ es, goodMeta blob e) :
    parseEntries es.length ((es.map Entry.packedMetadata).flatten) blob
      = .ok es := by
  induction es with
  | nil => rfl
  | cons e es ih =>
    have hchunk : ((e :: es).map Entry.packedMetadata).flatten.take 72
        = e.packedMetadata := by
      rw [List.map_cons, List.flatten_cons,
        List.take_left' (packedMetadata_length e)]
    have hrest : ((e :: es).map Entry.packedMetadata).flatten.drop 72
        = (es.map Entry.packedMetadata).flatten := by
      rw [List.map_cons, List.flatten_cons,
        List.drop_left' (packedMetadata_length e)]
    show parseEntries (es.length + 1) _ _ = _
    rw [parseEntries, hchunk, hrest,
      fromKomData_packedMetadata blob e (h e (by simp)),
      ih (fun x hx => h x (by simp [hx]))]

/-! ### Offset tiling lemmas -/

theorem tiles_setOffsets (es : List Entry) : ∀ k, tiles k (setOffsets k es) := by
  induction es with
  | nil => intro k; trivial
  | cons e es ih => intro k; exact ⟨rfl, ih _⟩

theorem setOffsets_length (es : List Entry) :
    ∀ k, (setOffsets k es).length = es.length := by
  induction es with
  | nil => intro k; rfl
  | cons e es ih => intro k; simp [setOffsets, ih]

theorem setOffsets_setOffsets (es : List Entry) :
    ∀ k k', setOffsets k (setOffsets k' es) = setOffsets k es := by
  induction es with
  | nil => intro k k'; rfl
  | cons e es ih => intro k k'; simp [setOffsets, ih]

theorem setOffsets_map_name (es : List Entry) :
    ∀ k, (setOffsets k es).map Entry.name = es.map Entry.name := by
  induction es with
  | nil => intro k; rfl
  | cons e es ih => intro k; simp [setOffsets, ih]

theorem setOffsets_map_nu (es : List Entry) :
    ∀ k, (setOffsets k es).map (fun e => (e.name, e.uncompressed_size))
      = es.map (fun e => (e.name, e.uncompressed_size)) := by
  induction es with
  | nil => intro k; rfl
  | cons e es ih => intro k; simp [setOffsets, ih]

theorem setOffsets_map_core (es : List Entry) :
    ∀ k, (setOffsets k es).map
        (fun e => (e.name, e.uncompressed_size, e.compressed_size, e.data))
      = es.map
        (fun e => (e.name, e.uncompressed_size, e.compressed_size, e.data)) := by
  induction es with
  | nil => intro k; rfl
  | cons e es ih => intro k; simp [setOffsets, ih]

theorem mem_setOffsets (es : List Entry) :
    ∀ k e, e ∈ setOffsets k es → ∃ a ∈ es, e.name = a.name ∧
      e.uncompressed_size = a.uncompressed_size ∧
      e.compressed_size = a.compressed_size ∧ e.data = a.data := by
  induction es with
  | nil => intro k e h; cases h
  | cons a es ih =>
    intro k e h
    rcases List.mem_cons.mp h with h | h
    · exact ⟨a, by simp, by rw [h], by rw [h], by rw [h], by rw [h]⟩
    · obtain ⟨b, hb, hs⟩ := ih _ e h
      exact ⟨b, by simp [hb], hs⟩

theorem exists_mem_setOffsets (es : List Entry) :
    ∀ k a, a ∈ es → ∃ e ∈ setOffsets k es, e.name = a.name ∧
      e.uncompressed_size = a.uncompressed_size ∧
      e.compressed_size = a.compressed_size ∧ e.data = a.data := by
  induction es with
  | nil => intro k a h; cases h
  | cons b es ih =>
    intro k a h
    rcases List.mem_cons.mp h with h | h
    · subst h
      exact ⟨{ a with relative_offset := k }, by simp [setOffsets],
        by simp, by simp, by simp, by simp⟩
    · obtain ⟨e, he, hs⟩ := ih (k + b.compressed_size) a h
      exact ⟨e, by simp [setOffsets, he], hs⟩

theorem take_drop_flatten_of_tiles (es : List Entry) :
    ∀ (pre tail : List Nat) (k : Nat), pre.length = k → tiles k es →
    (∀ e ∈ es, e.compressed_size = e.data.length) →
    ∀ e ∈ es,
      ((pre ++ (es.map Entry.data).flatten ++ tail).drop
        e.relative_offset).take e.compressed_size = e.data := by
  induction es with
  | nil => intro pre tail k hk ht hcs e he; cases he
  | cons e0 es ih =>
    intro pre tail k hk ht hcs e he
    obtain ⟨hoff, htl⟩ := ht
    rcases List.mem_cons.mp he with he | he
    · have hblob : pre ++ ((e0 :: es).map Entry.data).flatten ++ tail
          = pre ++ (e0.data ++ ((es.map Entry.data).flatten ++ tail)) := by
        simp
      rw [he, hblob, hoff, ← hk, List.drop_left' rfl, hcs e0 (by simp),
        List.take_left' rfl]
    · have hblob2 : pre ++ ((e0 :: es).map Entry.data).flatten ++ tail
          = (pre ++ e0.data) ++ (es.map Entry.data).flatten ++ tail := by
        simp [List.append_assoc]
      rw [hblob2]
      exact ih (pre ++ e0.data) tail (k + e0.compressed_size)
        (by simp [hk, hcs e0 (by simp)]) htl
        (fun x hx => hcs x (by simp [hx])) e he

theorem tiles_mem_bound (es : List Entry) :
    ∀ k, tiles k es → (∀ e ∈ es, e.compressed_size = e.data.length) →
    ∀ e ∈ es, e.relative_offset + e.compressed_size
      ≤ k + ((es.map Entry.data).flatten).length := by
  induction es with
  | nil => intro k ht hcs e he; cases he
  | cons e0 es ih =>
    intro k ht hcs e he
    obtain ⟨hoff, htl⟩ := ht
    rcases List.mem_cons.mp he with he | he
    · rw [he, hoff, hcs e0 (by simp)]
      simp only [List.map_cons, List.flatten_cons, List.length_append]
      omega
    · have := ih (k + e0.compressed_size) htl
        (fun x hx => hcs x (by simp [hx])) e he
      rw [hcs e0 (by simp)] at this
      simp only [List.map_cons, List.flatten_cons, List.length_append]
      omega

theorem relativeOffset_of_tiles (es : List Entry) :
    ∀ k, tiles k es → (∀ e ∈ es, e.compressed_size = e.data.length) →
    es ≠ [] → relativeOffset es = k + ((es.map Entry.data).flatten).length := by
  induction es with
  | nil => intro k ht hcs hne; exact absurd rfl hne
  | cons e0 es ih =>
    intro k ht hcs hne
    obtain ⟨hoff, htl⟩ := ht
    cases es with
    | nil =>
      simp [relativeOffset, hoff, hcs e0 (by simp)]
    | cons e1 es1 =>
      have hro : relativeOffset (e0 :: e1 :: es1) = relativeOffset (e1 :: es1) := by
        simp [relativeOffset]
      rw [hro, ih (k + e0.compressed_size) htl
        (fun x hx => hcs x (by simp [hx])) (by simp)]
      rw [hcs e0 (by simp)]
      simp only [List.map_cons, List.flatten_cons, List.length_append]
      omega

theorem relativeOffset_zero_tiles (es : List Entry) (ht : tiles 0 es)
    (hcs : ∀ e ∈ es, e.compressed_size = e.data.length) :
    relativeOffset es = ((es.map Entry.data).flatten).length := by
  cases h : es with
  | nil => simp [relativeOffset]
  | cons e0 es1 =>
    rw [← h]
    have := relativeOffset_of_tiles es 0 ht hcs (by simp [h])
    omega

theorem tiles_getD_zero (es : List Entry) (k : Nat) (ht : tiles k es)
    (h : 0 < es.length) : (es.getD 0 dfltEntry).relative_offset = k := by
  cases es with
  | nil => simp at h
  | cons e es => exact ht.1

theorem tiles_getD_succ (es : List Entry) :
    ∀ k i, tiles k es → i + 1 < es.length →
    (es.getD (i + 1) dfltEntry).relative_offset
      = (es.getD i dfltEntry).relative_offset
        + (es.getD i dfltEntry).compressed_size := by
  induction es with
  | nil => intro k i ht h; simp at h
  | cons e es ih =>
    intro k i ht h
    obtain ⟨hoff, htl⟩ := ht
    cases i with
    | zero =>
      have h0 : 0 < es.length := by simp at h; omega
      simp only [List.getD_cons_succ, List.getD_cons_zero]
      rw [tiles_getD_zero es _ htl h0, hoff]
    | succ i =>
      simp only [List.getD_cons_succ]
      exact ih _ i htl (by simp at h; omega)

/-! ### Ordering lemmas for the entry sort -/

theorem nameLeB_cons_cases (a b : Nat) (as bs : List Nat)
    (h : nameLeB (a :: as) (b :: bs) = true) :
    a < b ∨ (a = b ∧ nameLeB as bs = true) := by
  simp only [nameLeB] at h
  by_cases hab : a < b
  · exact Or.inl hab
  · by_cases hba : b < a
    · rw [if_neg hab, if_pos hba] at h
      exact absurd h (by simp)
    · rw [if_neg hab, if_neg hba] at h
      exact Or.inr ⟨by omega, h⟩

theorem nameLeB_trans : ∀ (a b c : List Nat),
    nameLeB a b = true → nameLeB b c = true → nameLeB a c = true
  | [], _, _, _, _ => rfl
  | _ :: _, [], _, h1, _ => by simp [nameLeB] at h1
  | _ :: _, _ :: _, [], _, h2 => by simp [nameLeB] at h2
  | a :: as, b :: bs, c :: cs, h1, h2 => by
    rcases nameLeB_cons_cases a b as bs h1 with g1 | ⟨g1, gr1⟩ <;>
      rcases nameLeB_cons_cases b c bs cs h2 with g2 | ⟨g2, gr2⟩ <;>
      simp only [nameLeB]
    · rw [if_pos (by omega)]
    · rw [if_pos (by omega)]
    · rw [if_pos (by omega)]
    · rw [if_neg (by omega), if_neg (by omega)]
      exact nameLeB_trans as bs cs gr1 gr2

theorem nameLeB_total : ∀ (a b : List Nat),
    nameLeB a b = true ∨ nameLeB b a = true
  | [], _ => Or.inl rfl
  | _ :: _, [] => Or.inr rfl
  | a :: as, b :: bs => by
    by_cases hab : a < b
    · exact Or.inl (by simp [nameLeB, hab])
    · by_cases hba : b < a
      · exact Or.inr (by simp [nameLeB, hba])
      · rcases nameLeB_total as bs with h | h
        · exact Or.inl (by simp only [nameLeB]; rw [if_neg hab, if_neg hba]; exact h)
        · exact Or.inr (by simp only [nameLeB]; rw [if_neg hba, if_neg hab]; exact h)

theorem entLe_trans (a b c : Entry) (h1 : entLe a b = true)
    (h2 : entLe b c = true) : entLe a c = true :=
  nameLeB_trans a.name b.name c.name h1 h2

theorem entLe_total (a b : Entry) : (entLe a b || entLe b a) = true := by
  rcases nameLeB_total a.name b.name with h | h <;> simp [entLe, h]

theorem pairwise_entLe_setOffsets (es : List Entry) (k : Nat)
    (h : List.Pairwise (fun a b => entLe a b = true) es) :
    List.Pairwise (fun a b => entLe a b = true) (setOffsets k es) := by
  have h1 : List.Pairwise (fun a b => nameLeB a b = true)
      (es.map Entry.name) := List.pairwise_map.mpr h
  have h2 : List.Pairwise (fun a b => nameLeB a b = true)
      ((setOffsets k es).map Entry.name) := by
    rw [setOffsets_map_name]
    exact h1
  exact List.pairwise_map.mp h2

theorem sortEntries_length (es : List Entry) :
    (sortEntries es).length = es.length := by
  rw [sortEntries, setOffsets_length, List.length_mergeSort]

theorem sortEntries_idem (es : List Entry) :
    sortEntries (sortEntries es) = sortEntries es := by
  unfold sortEntries
  have hsorted : List.Pairwise (fun a b => entLe a b = true)
      (es.mergeSort entLe) :=
    List.sorted_mergeSort entLe_trans entLe_total es
  rw [List.mergeSort_of_sorted (pairwise_entLe_setOffsets _ 0 hsorted),
    setOffsets_setOffsets]

/-! ### Lemmas about addFile and addAll -/

theorem addFile_ok_fields (c : Codec) (k k2 : Kom) (name raw : List Nat)
    (h : Kom.addFile c k name raw = .ok k2) :
    k2.version = k.version ∧ k2.crc = k.crc ∧ k2.crc_entry = k.crc_entry ∧
    k2.entries = k.entries ++ [Entry.fromFile c name raw] := by
  unfold Kom.addFile at h
  split_ifs at h
  injection h with h
  subst h
  exact ⟨rfl, rfl, rfl, rfl⟩

theorem addAll_frame (c : Codec) (ps : List (List Nat × List Nat)) :
    ∀ k : Kom, (addAll c k ps).version = k.version ∧
      (addAll c k ps).crc = k.crc ∧
      (addAll c k ps).crc_entry = k.crc_entry := by
  induction ps with
  | nil => intro k; exact ⟨rfl, rfl, rfl⟩
  | cons p ps ih =>
    intro k
    have hstep : addAll c k (p :: ps)
        = addAll c (match Kom.addFile c k p.1 p.2 with
          | .ok k2 => k2
          | .error _ => k) ps := by
      rfl
    rw [hstep]
    cases h : Kom.addFile c k p.1 p.2 with
    | error e =>
      simp only [h]
      exact ih k
    | ok k2 =>
      simp only [h]
      obtain ⟨h1, h2, h3, _⟩ := addFile_ok_fields c k k2 p.1 p.2 h
      obtain ⟨g1, g2, g3⟩ := ih k2
      exact ⟨g1.trans h1, g2.trans h2, g3.trans h3⟩

theorem addAll_entries (c : Codec) :
    ∀ (ps : List (List Nat × List Nat)) (k : Kom),
    (∀ p ∈ ps, p.1 ≠ crcName ∧ p.1.length ≤ 60) →
    (ps.map Prod.fst).Nodup →
    (∀ p ∈ ps, ∀ e ∈ k.entries, e.name ≠ p.1) →
    (addAll c k ps).entries
      = k.entries ++ ps.map (fun p => Entry.fromFile c p.1 p.2) := by
  intro ps
  induction ps with
  | nil => intro k _ _ _; simp [addAll]
  | cons p ps ih =>
    intro k hval hnd hdis
    have hok : Kom.addFile c k p.1 p.2
        = .ok { k with entries := k.entries ++ [Entry.fromFile c p.1 p.2] } := by
      unfold Kom.addFile
      rw [if_neg (hval p (by simp)).1,
        if_neg (by have := (hval p (by simp)).2; omega)]
      rw [if_neg ?_]
      rw [Bool.not_eq_true, List.any_eq_false]
      intro e he
      simp only [beq_iff_eq]
      exact hdis p (by simp) e he
    have hstep : addAll c k (p :: ps)
        = addAll c (match Kom.addFile c k p.1 p.2 with
          | .ok k2 => k2
          | .error _ => k) ps := rfl
    rw [hstep, hok]
    have hrest := ih { k with entries := k.entries ++ [Entry.fromFile c p.1 p.2] }
      (fun q hq => hval q (by simp [hq]))
      (by simp only [List.map_cons] at hnd; exact hnd.of_cons)
      ?_
    · rw [hrest]
      simp
    · intro q hq e he
      simp only [List.mem_append] at he
      rcases he with he | he
      · exact hdis q (by simp [hq]) e he
      · have : e = Entry.fromFile c p.1 p.2 := by simpa using he
        rw [this]
        show p.1 ≠ q.1
        simp only [List.map_cons, List.nodup_cons] at hnd
        intro hcontra
        exact hnd.1 (hcontra ▸ List.mem_map_of_mem Prod.fst hq)

/-! ### Header lemmas -/

theorem pack27_length (s : List Nat) : (pack27 s).length = 27 := by
  simp only [pack27, List.length_append, List.length_take, List.length_replicate]
  omega

theorem rawVersionBytes_length (v : Nat) (h : v ≤ 5) :
    (rawVersionBytes v).length = 27 := by
  interval_cases v <;> decide

theorem pack27_rawVersionBytes (v : Nat) (h : v ≤ 5) :
    pack27 (rawVersionBytes v) = rawVersionBytes v := by
  interval_cases v <;> decide

theorem parseRawVersion_rawVersionBytes (v : Nat) (h : v ≤ 5) :
    parseRawVersion (rawVersionBytes v) = some v := by
  interval_cases v <;> decide

theorem packHeader_length (v n : Nat) : (packHeader v n).length = 60 := by
  simp only [packHeader, List.length_append, pack27_length, packU32_length,
    List.length_replicate]

theorem packHeader_take27 (v n : Nat) (h : v ≤ 5) (rest : List Nat) :
    (packHeader v n ++ rest).take 27 = rawVersionBytes v := by
  have hshape : packHeader v n ++ rest
      = pack27 (rawVersionBytes v)
        ++ (List.replicate 25 0 ++ (packU32 n ++ (packU32 1 ++ rest))) := by
    simp [packHeader, List.append_assoc]
  rw [hshape, List.take_left' (pack27_length _), pack27_rawVersionBytes v h]

theorem packHeader_count (v n : Nat) (rest : List Nat) :
    ((packHeader v n ++ rest).drop 52).take 4 = packU32 n := by
  have hshape : packHeader v n ++ rest
      = (pack27 (rawVersionBytes v) ++ List.replicate 25 0)
        ++ (packU32 n ++ (packU32 1 ++ rest)) := by
    simp [packHeader, List.append_assoc]
  have h52 : (pack27 (rawVersionBytes v) ++ List.replicate 25 0).length = 52 := by
    simp [pack27_length]
  rw [hshape, List.drop_left' h52, List.take_left' (packU32_length n)]

theorem packHeader_drop60 (v n : Nat) (rest : List Nat) :
    (packHeader v n ++ rest).drop 60 = rest :=
  List.drop_left' (packHeader_length v n)

/-! ### Hexadecimal formatting lemmas -/

theorem hexChar_hex (n : Nat) (h : n < 16) : isHexLowerB (hexChar n) = true := by
  unfold isHexLowerB hexChar
  split_ifs with h10 <;> simp <;> omega

theorem toHexLE_length_le (k : Nat) :
    ∀ n, n < 16 ^ k → (toHexLE n).length ≤ max 1 k := by
  induction k with
  | zero =>
    intro n hn
    have : n = 0 := by omega
    subst this
    rw [toHexLE]
    simp
  | succ k ih =>
    intro n hn
    rw [toHexLE]
    split_ifs with h16
    · simp
    · have hk1 : 1 ≤ k := by
        by_contra hk
        have : k = 0 := by omega
        subst this
        simp at hn
        omega
      have hdiv : n / 16 < 16 ^ k := by
        rw [Nat.div_lt_iff_lt_mul (by omega)]
        calc n < 16 ^ (k + 1) := hn
        _ = 16 ^ k * 16 := by rw [Nat.pow_succ]
      have := ih (n / 16) hdiv
      simp only [List.length_cons]
      omega

theorem toHexLE_all_hex (n : Nat) : (toHexLE n).all isHexLowerB = true := by
  induction n using Nat.strong_induction_on with
  | _ n ih =>
    rw [toHexLE]
    split_ifs with h16
    · simp [hexChar_hex n h16]
    · have hdiv : n / 16 < n := Nat.div_lt_self (by omega) (by omega)
      simp [hexChar_hex (n % 16) (Nat.mod_lt _ (by omega)), ih (n / 16) hdiv]

theorem pyHex08_length (n : Nat) (h : n < 2 ^ 32) : (pyHex08 n).length = 8 := by
  have h16 : n < 16 ^ 8 := by
    have : (16 : Nat) ^ 8 = 2 ^ 32 := by norm_num
    omega
  have hl := toHexLE_length_le 8 n h16
  simp only [pyHex08, List.length_append, List.length_replicate,
    List.length_reverse]
  omega

theorem pyHex08_all_hex (n : Nat) : (pyHex08 n).all isHexLowerB = true := by
  simp only [pyHex08, List.all_append, List.all_reverse, toHexLE_all_hex,
    Bool.and_true]
  rw [List.all_eq_true]
  intro x hx
  have : x = 48 := List.eq_of_mem_replicate hx
  subst this
  decide

/-! ### Structural lemmas about serialization -/

theorem toFile_fst (c : Codec) (k : Kom) :
    (Kom.toFile c k).1 = { k with
      entries := sortEntries k.entries
      crc := some (.built (buildCrc c k.version (sortEntries k.entries)))
      crc_entry := some (toFileCrcEntry c k) } := rfl

theorem toFile_snd (c : Codec) (k : Kom) :
    (Kom.toFile c k).2 = packHeader k.version (k.entries.length + 1)
      ++ (((sortEntries k.entries).map Entry.packedMetadata).flatten
        ++ (toFileCrcEntry c k).packedMetadata)
      ++ (((sortEntries k.entries).map Entry.data).flatten
        ++ (toFileCrcEntry c k).data) := rfl

theorem getD_map_crcItem (c : Codec) :
    ∀ (l : List Entry) (i : Nat), i < l.length →
    (l.map (crcItemOf c)).getD i dfltItem = crcItemOf c (l.getD i dfltEntry) := by
  intro l
  induction l with
  | nil => intro i hi; simp at hi
  | cons e l ih =>
    intro i hi
    cases i with
    | zero => rfl
    | succ i =>
      simp only [List.map_cons, List.getD_cons_succ]
      exact ih i (by simp at hi; omega)

/-! ### Claim C2 -/

/-- C2 (confirmed): immediately after `serialize()`, the entries in final
name-sorted order satisfy `offset[0] = 0` and
`offset[i+1] = offset[i] + compressed_size[i]`, and the manifest
entry's relative offset continues the sequence: it equals the last
entry's offset plus its compressed size, or 0 when there are no
entries. -/
theorem C2_offset_tiling (c : Codec) (s : Kom) :
    (0 < ((Kom.toFile c s).1).entries.length →
      (((Kom.toFile c s).1).entries.getD 0 dfltEntry).relative_offset = 0)
    ∧ (∀ i, i + 1 < ((Kom.toFile c s).1).entries.length →
      (((Kom.toFile c s).1).entries.getD (i + 1) dfltEntry).relative_offset
        = (((Kom.toFile c s).1).entries.getD i dfltEntry).relative_offset
          + (((Kom.toFile c s).1).entries.getD i dfltEntry).compressed_size)
    ∧ (∀ e, ((Kom.toFile c s).1).crc_entry = some e →
      e.relative_offset
        = match ((Kom.toFile c s).1).entries.getLast? with
          | none => 0
          | some l => l.relative_offset + l.compressed_size) := by
  have ht : tiles 0 (((Kom.toFile c s).1).entries) :=
    tiles_setOffsets (s.entries.mergeSort entLe) 0
  refine ⟨fun h => tiles_getD_zero _ 0 ht h,
    fun i hi => tiles_getD_succ _ 0 i ht hi, ?_⟩
  intro e he
  have hsome : ((Kom.toFile c s).1).crc_entry = some (toFileCrcEntry c s) := rfl
  rw [hsome] at he
  rw [(Option.some_inj.mp he).symm]
  rfl

unseal List.merge List.mergeSort in
/-- Concrete instantiation of C2 at a two-entry archive. -/
theorem C2_offset_tiling_witness :
    0 + 1 < ((Kom.toFile idCodec
        (addAll idCodec (Kom.empty 2) [([98], [1, 2]), ([97], [3])])).1).entries.length
    ∧ (((Kom.toFile idCodec
        (addAll idCodec (Kom.empty 2) [([98], [1, 2]), ([97], [3])])).1).entries.getD
          (0 + 1) dfltEntry).relative_offset
      = (((Kom.toFile idCodec
          (addAll idCodec (Kom.empty 2) [([98], [1, 2]), ([97], [3])])).1).entries.getD
            0 dfltEntry).relative_offset
        + (((Kom.toFile idCodec
            (addAll idCodec (Kom.empty 2) [([98], [1, 2]), ([97], [3])])).1).entries.getD
              0 dfltEntry).compressed_size :=
  ⟨by decide,
    (C2_offset_tiling idCodec
      (addAll idCodec (Kom.empty 2) [([98], [1, 2]), ([97], [3])])).2.1 0 (by decide)⟩

/-! ### Claim C5 -/

/-- C5 (confirmed): calling `serialize()` twice with no intervening
mutation yields bit-identical bytes. -/
theorem C5_serialize_idempotent (c : Codec) (s : Kom) :
    (Kom.toFile c (Kom.toFile c s).1).2 = (Kom.toFile c s).2 := by
  rw [toFile_snd c (Kom.toFile c s).1, toFile_snd c s]
  have hv : ((Kom.toFile c s).1).version = s.version := rfl
  have he : ((Kom.toFile c s).1).entries = sortEntries s.entries := rfl
  unfold toFileCrcEntry
  rw [hv, he, sortEntries_idem, sortEntries_length]

/-! ### Claim C6 -/

unseal List.merge List.mergeSort in
/-- Counterexample to C6 as stated: serialization is not a pure
projection of the state.  `to_file` sorts `self._entries` in place, so
for an archive whose entries were added in the order b, a the order of
the entry sequence observably changes across the call (their
relative offsets are rewritten as well). -/
theorem C6_serialize_frame_counterexample :
    ((Kom.toFile idCodec
        (addAll idCodec (Kom.empty 2) [([98], [1, 2]), ([97], [3])])).1).entries.map
        Entry.name
      ≠ (addAll idCodec (Kom.empty 2) [([98], [1, 2]), ([97], [3])]).entries.map
        Entry.name := by
  decide

/-- C6 (corrected): `serialize()` preserves the version and the multiset
of entries up to their relative offsets (name, sizes and compressed
payload are untouched), but it re-sorts the entry sequence by name,
recomputes every relative offset, and replaces the cached manifest
entry with the freshly built one. -/
theorem C6_serialize_frame_amended (c : Codec) (s : Kom) :
    ((Kom.toFile c s).1).version = s.version
    ∧ (((Kom.toFile c s).1).entries.map
        (fun e => (e.name, e.uncompressed_size, e.compressed_size, e.data))).Perm
      (s.entries.map
        (fun e => (e.name, e.uncompressed_size, e.compressed_size, e.data)))
    ∧ List.Pairwise (fun a b => entLe a b = true) ((Kom.toFile c s).1).entries
    ∧ ((Kom.toFile c s).1).crc_entry = some (toFileCrcEntry c s) := by
  refine ⟨rfl, ?_, ?_, rfl⟩
  · have he : ((Kom.toFile c s).1).entries
        = setOffsets 0 (s.entries.mergeSort entLe) := rfl
    rw [he, setOffsets_map_core]
    exact (List.mergeSort_perm s.entries entLe).map _
  · exact pairwise_entLe_setOffsets _ 0
      (List.sorted_mergeSort entLe_trans entLe_total s.entries)

/-! ### Claim C10 -/

/-- C10 (confirmed): an archive built through the version constructor
and any number of additions, never serialized, has container length 0
(`__len__` returns 0 whenever no crc entry exists); once a manifest
entry exists the length is the entry count plus one. -/
theorem C10_len (c : Codec) :
    (∀ v k1, Kom.init v = .ok k1 →
      ∀ ps, komLen (addAll c k1 ps) = 0)
    ∧ (∀ s : Kom, ∀ e, s.crc_entry = some e →
      komLen s = s.entries.length + 1) := by
  constructor
  · intro v k1 h ps
    have hk1 : k1.crc_entry = none := by
      unfold Kom.init at h
      split_ifs at h
      injection h with h
      rw [← h]
      rfl
    have := (addAll_frame c ps k1).2.2
    unfold komLen
    rw [this, hk1]
    rfl
  · intro s e h
    unfold komLen
    rw [h]
    rfl

unseal List.merge List.mergeSort in
/-- Concrete instantiation of C10: two additions leave the length at 0,
and a serialized empty archive has length 1. -/
theorem C10_len_witness :
    komLen (addAll idCodec (Kom.empty 2) [([97], [5]), ([98], [6])]) = 0
    ∧ komLen (Kom.toFile idCodec (Kom.empty 2)).1
      = ((Kom.toFile idCodec (Kom.empty 2)).1).entries.length + 1 :=
  ⟨(C10_len idCodec).1 2 (Kom.empty 2) rfl [([97], [5]), ([98], [6])],
    (C10_len idCodec).2 (Kom.toFile idCodec (Kom.empty 2)).1
      (toFileCrcEntry idCodec (Kom.empty 2)) rfl⟩

/-! ### Claim C3 -/

/-- C3 (confirmed): in the manifest of a freshly serialized archive, the
CheckSum attribute of each non-manifest entry is the crc32 of that
entry's compressed bytes, rendered by `%08x` as exactly eight
lowercase hexadecimal digits with leading zeros. -/
theorem C3_checksum (c : Codec) (s : Kom) :
    ∃ d, ((Kom.toFile c s).1).crc = some (.built d)
      ∧ d.items.length = ((Kom.toFile c s).1).entries.length
      ∧ ∀ i, i < d.items.length →
        (d.items.getD i dfltItem).name
          = (((Kom.toFile c s).1).entries.getD i dfltEntry).name
        ∧ (d.items.getD i dfltItem).checkSum
          = pyHex08 (c.crc32 ((((Kom.toFile c s).1).entries.getD i dfltEntry).data))
        ∧ ((d.items.getD i dfltItem).checkSum).length = 8
        ∧ ((d.items.getD i dfltItem).checkSum).all isHexLowerB = true := by
  refine ⟨buildCrc c s.version (sortEntries s.entries), rfl, ?_, ?_⟩
  · simp only [buildCrc, List.length_map]
    rfl
  · intro i hi
    have hi2 : i < (sortEntries s.entries).length := by
      simpa [buildCrc] using hi
    have hget : (buildCrc c s.version (sortEntries s.entries)).items.getD i dfltItem
        = crcItemOf c ((sortEntries s.entries).getD i dfltEntry) :=
      getD_map_crcItem c (sortEntries s.entries) i hi2
    have hentries : ((Kom.toFile c s).1).entries = sortEntries s.entries := rfl
    rw [hentries, hget]
    refine ⟨rfl, rfl, ?_, ?_⟩
    · exact pyHex08_length _ (c.crc32_lt _)
    · exact pyHex08_all_hex _

unseal List.merge List.mergeSort in
/-- Concrete instantiation of C3 at a one-entry archive. -/
theorem C3_checksum_witness :
    ∃ d, ((Kom.toFile idCodec (addAll idCodec (Kom.empty 2) [([97], [5])])).1).crc
        = some (.built d)
      ∧ d.items.length
        = ((Kom.toFile idCodec (addAll idCodec (Kom.empty 2) [([97], [5])])).1).entries.length
      ∧ ∀ i, i < d.items.length →
        (d.items.getD i dfltItem).name
          = (((Kom.toFile idCodec
              (addAll idCodec (Kom.empty 2) [([97], [5])])).1).entries.getD i dfltEntry).name
        ∧ (d.items.getD i dfltItem).checkSum
          = pyHex08 (idCodec.crc32 ((((Kom.toFile idCodec
              (addAll idCodec (Kom.empty 2) [([97], [5])])).1).entries.getD i dfltEntry).data))
        ∧ ((d.items.getD i dfltItem).checkSum).length = 8
        ∧ ((d.items.getD i dfltItem).checkSum).all isHexLowerB = true :=
  C3_checksum idCodec (addAll idCodec (Kom.empty 2) [([97], [5])])

/-! ### Claim C4 -/

/-- Counterexample to C4 as stated: the reserved name crc.xml and a
61-byte name do not raise distinct error kinds.  `add_file` raises the
same exception class, `IgnoredFile`, for both (kom.py lines 261-265),
so the two conditions are not identifiable by their own error kinds. -/
theorem C4_error_kinds_counterexample :
    Kom.addFile idCodec (Kom.empty 2) crcName [] = .error (.ignoredFile crcName)
    ∧ Kom.addFile idCodec (Kom.empty 2) (List.replicate 61 97) []
      = .error (.ignoredFile (List.replicate 61 97))
    ∧ addErrKind (Kom.addFile idCodec (Kom.empty 2) crcName [])
      = addErrKind (Kom.addFile idCodec (Kom.empty 2) (List.replicate 61 97) []) :=
  ⟨rfl, rfl, rfl⟩

/-- C4 (corrected): `add_file` fails exactly under the three stated
conditions, checked in this order, but with only two error kinds: the
reserved name crc.xml and a name longer than 60 bytes both raise
`IgnoredFile`, while a duplicate name raises the distinct
`MultipleFilesError`. -/
theorem C4_error_kinds_amended (c : Codec) (k : Kom) (name raw : List Nat) :
    (Kom.addFile c k name raw = .error (.ignoredFile name)
      ↔ (name = crcName ∨ 60 < name.length))
    ∧ (Kom.addFile c k name raw = .error (.multipleFilesError name)
      ↔ (name ≠ crcName ∧ name.length ≤ 60
          ∧ k.entries.any (fun e => e.name == name) = true))
    ∧ ((∃ k2, Kom.addFile c k name raw = .ok k2)
      ↔ (name ≠ crcName ∧ name.length ≤ 60
          ∧ k.entries.any (fun e => e.name == name) = false)) := by
  unfold Kom.addFile
  by_cases h1 : name = crcName
  · rw [if_pos h1]
    refine ⟨⟨fun _ => Or.inl h1, fun _ => rfl⟩,
      ⟨fun hh => absurd hh (by simp), fun hh => absurd h1 hh.1⟩,
      ⟨fun hh => ?_, fun hh => absurd h1 hh.1⟩⟩
    obtain ⟨k2, hk2⟩ := hh
    exact Except.noConfusion hk2
  · rw [if_neg h1]
    by_cases h2 : 60 < name.length
    · rw [if_pos h2]
      refine ⟨⟨fun _ => Or.inr h2, fun _ => rfl⟩,
        ⟨fun hh => absurd hh (by simp), fun hh => absurd hh.2.1 (by omega)⟩,
        ⟨fun hh => ?_, fun hh => absurd hh.2.1 (by omega)⟩⟩
      obtain ⟨k2, hk2⟩ := hh
      exact Except.noConfusion hk2
    · rw [if_neg h2]
      by_cases h3 : k.entries.any (fun e => e.name == name) = true
      · rw [if_pos h3]
        refine ⟨⟨fun hh => absurd hh (by simp), fun hh => ?_⟩,
          ⟨fun _ => ⟨h1, by omega, h3⟩, fun _ => rfl⟩,
          ⟨fun hh => ?_, fun hh => ?_⟩⟩
        · rcases hh with hh | hh
          · exact absurd hh h1
          · omega
        · obtain ⟨k2, hk2⟩ := hh
          exact Except.noConfusion hk2
        · rw [h3] at hh
          exact absurd hh.2.2 (by simp)
      · have h3f : k.entries.any (fun e => e.name == name) = false := by
          rw [Bool.not_eq_true] at h3
          exact h3
        rw [if_neg h3]
        refine ⟨⟨fun hh => Except.noConfusion hh, fun hh => ?_⟩,
          ⟨fun hh => Except.noConfusion hh, fun hh => ?_⟩,
          ⟨fun _ => ⟨h1, by omega, h3f⟩,
            fun _ => ⟨{ k with entries := k.entries ++ [Entry.fromFile c name raw] },
              rfl⟩⟩⟩
        · rcases hh with hh | hh
          · exact absurd hh h1
          · omega
        · rw [h3f] at hh
          exact absurd hh.2.2 (by simp)

unseal List.merge List.mergeSort in
/-- Concrete instantiation of the amended C4: a valid fresh name is
accepted. -/
theorem C4_error_kinds_witness :
    ∃ k2, Kom.addFile idCodec (Kom.empty 2) [97] [5] = .ok k2 :=
  (C4_error_kinds_amended idCodec (Kom.empty 2) [97] [5]).2.2.mpr (by decide)

/-! ### Claim C9 -/

/-- Counterexample to C9 as stated: on the load path the slice
`raw_data[off : off + size]` clamps to the blob length, so a record
declaring compressed size 5 against an empty blob yields an entry with
`compressed_size = 5` but zero bytes of data, violating the invariant
`compressed_size == len(compressed_bytes)`. -/
theorem C9_size_invariant_counterexample :
    (Entry.fromKomData (packName [97] ++ packU32 0 ++ packU32 5 ++ packU32 0)
        []).toOption.map (fun e => (e.compressed_size, e.data.length))
      = some (5, 0) := by
  decide

/-- C9 (corrected): the invariant `compressed_size == len(data)` holds
unconditionally on both construction paths, and on the load path it
holds exactly when the declared slice fits, i.e. when the declared
size is 0 or offset plus size is at most the blob length. -/
theorem C9_size_invariant_amended (c : Codec) :
    (∀ name raw, (Entry.fromFile c name raw).compressed_size
        = (Entry.fromFile c name raw).data.length)
    ∧ (∀ raw name off, (Entry.fromData c raw name off).compressed_size
        = (Entry.fromData c raw name off).data.length)
    ∧ (∀ meta blob e, Entry.fromKomData meta blob = .ok e →
        ((e.compressed_size = e.data.length)
          ↔ (e.compressed_size = 0
              ∨ e.relative_offset + e.compressed_size ≤ blob.length))) := by
  refine ⟨fun name raw => rfl, fun raw name off => rfl, ?_⟩
  intro meta blob e h
  unfold Entry.fromKomData at h
  split_ifs at h with h1
  cases hd : decodeName (meta.take 60) with
  | none =>
    rw [hd] at h
    exact Except.noConfusion h
  | some nm =>
    rw [hd] at h
    injection h with h
    rw [← h]
    simp only [List.length_take, List.length_drop]
    omega

/-- Concrete instantiation of the amended C9 on the load path with a
slice that fits. -/
theorem C9_size_invariant_witness :
    Entry.fromKomData (packName [97] ++ packU32 3 ++ packU32 2 ++ packU32 0)
        [5, 6]
      = .ok { name := [97], uncompressed_size := 3, compressed_size := 2,
              relative_offset := 0, data := [5, 6] }
    ∧ (({ name := [97], uncompressed_size := 3, compressed_size := 2,
          relative_offset := 0, data := [5, 6] } : Entry).compressed_size
        = ({ name := [97], uncompressed_size := 3, compressed_size := 2,
             relative_offset := 0, data := [5, 6] } : Entry).data.length
      ↔ (({ name := [97], uncompressed_size := 3, compressed_size := 2,
            relative_offset := 0, data := [5, 6] } : Entry).compressed_size = 0
          ∨ ({ name := [97], uncompressed_size := 3, compressed_size := 2,
               relative_offset := 0, data := [5, 6] } : Entry).relative_offset
            + ({ name := [97], uncompressed_size := 3, compressed_size := 2,
                 relative_offset := 0, data := [5, 6] } : Entry).compressed_size
            ≤ ([5, 6] : List Nat).length)) :=
  ⟨rfl, (C9_size_invariant_amended idCodec).2.2
    (packName [97] ++ packU32 3 ++ packU32 2 ++ packU32 0) [5, 6]
    { name := [97], uncompressed_size := 3, compressed_size := 2,
      relative_offset := 0, data := [5, 6] } rfl⟩

/-! ### Version field characterization -/

theorem intRawVersionBytes_ofNat (v : Int) (h : 0 ≤ v) :
    intRawVersionBytes v = rawVersionBytes v.toNat := by
  unfold intRawVersionBytes rawVersionBytes versionStrBytes intDigits
  rw [if_neg (by omega)]
  simp [List.append_assoc]

theorem parseRawVersion_eq_some (field : List Nat) (w : Nat) :
    parseRawVersion field = some w ↔ (w ≤ 5 ∧ field = rawVersionBytes w) := by
  constructor
  · intro h
    unfold parseRawVersion at h
    split_ifs at h with hall hlen
    cases hpi : pyInt ((field.splitOn 46).getD ((field.splitOn 46).length - 2) [])
      with
    | none => rw [hpi] at h; exact Option.noConfusion h
    | some v =>
      rw [hpi] at h
      dsimp only at h
      split_ifs at h with hcond
      injection h with h
      obtain ⟨hfv, hv0, hv5⟩ := hcond
      refine ⟨by omega, ?_⟩
      rw [hfv, intRawVersionBytes_ofNat v hv0, ← h]
  · rintro ⟨hw, hf⟩
    rw [hf]
    exact parseRawVersion_rawVersionBytes w hw

theorem fromKomData_error (meta blob : List Nat) (e : OpenErr)
    (h : Entry.fromKomData meta blob = .error e) :
    e = .structError ∨ e = .unicodeError := by
  unfold Entry.fromKomData at h
  split_ifs at h with h1
  · injection h with h
    exact Or.inl h.symm
  · cases hd : decodeName (meta.take 60) with
    | none =>
      rw [hd] at h
      injection h with h
      exact Or.inr h.symm
    | some nm =>
      rw [hd] at h
      exact Except.noConfusion h

theorem parseEntries_ne_format :
    ∀ (n : Nat) (a b : List Nat), parseEntries n a b ≠ .error .formatError := by
  intro n
  induction n with
  | zero => intro a b h; exact Except.noConfusion h
  | succ n ih =>
    intro a b h
    unfold parseEntries at h
    cases hf : Entry.fromKomData (a.take 72) b with
    | error e =>
      rw [hf] at h
      injection h with h
      rcases fromKomData_error _ _ e hf with he | he <;>
        rw [he] at h <;> exact OpenErr.noConfusion h
    | ok ent =>
      rw [hf] at h
      cases hr : parseEntries n (a.drop 72) b with
      | error e =>
        rw [hr] at h
        injection h with h
        rw [h] at hr
        exact ih _ _ hr
      | ok es =>
        rw [hr] at h
        exact Except.noConfusion h

/-! ### Claim C7 -/

/-- C7 (confirmed): for input holding at least the 60-byte header, the
open path fails with the format error of the version-validation step
exactly when the 27-byte field does not literally equal the version
pattern for some digit between 0 and 5; on success the reported
version is the digit from the header.  FormatError here stands for
any exception raised by kom.py lines 230-234, which the specification
taxonomy names FormatError; failures of later stages carry the other
error kinds. -/
theorem openKomWith_ne_format (c : Codec) (bytes : List Nat) (v : Nat) :
    openKomWith c bytes v ≠ .error .formatError := by
  unfold openKomWith
  intro habs
  split at habs
  · next e heq =>
      injection habs with habs
      rw [habs] at heq
      exact parseEntries_ne_format _ _ _ heq
  · split at habs
    · exact absurd habs (by simp)
    · split at habs
      · exact absurd habs (by simp)
      · split_ifs at habs
        exact absurd habs (by simp)

theorem openKomWith_ok_version (c : Codec) (bytes : List Nat) (v : Nat)
    (k2 : Kom) (h : openKomWith c bytes v = .ok k2) : k2.version = v := by
  unfold openKomWith at h
  split at h
  · exact Except.noConfusion h
  · split at h
    · exact Except.noConfusion h
    · split at h
      · exact Except.noConfusion h
      · split_ifs at h
        injection h with h
        rw [← h]

theorem C7_open_format_error (c : Codec) (bytes : List Nat)
    (h60 : 60 ≤ bytes.length) :
    ((Kom.openKom c bytes = .error .formatError)
      ↔ ¬∃ d, d ≤ 5 ∧ bytes.take 27 = rawVersionBytes d)
    ∧ (∀ k2, Kom.openKom c bytes = .ok k2 →
        k2.version ≤ 5 ∧ bytes.take 27 = rawVersionBytes k2.version) := by
  unfold Kom.openKom
  rw [if_neg (by omega)]
  cases hp : parseRawVersion (bytes.take 27) with
  | none =>
    refine ⟨⟨fun _ => ?_, fun _ => rfl⟩, fun k2 h2 => Except.noConfusion h2⟩
    rintro ⟨d, hd, hf⟩
    have := (parseRawVersion_eq_some (bytes.take 27) d).mpr ⟨hd, hf⟩
    rw [hp] at this
    exact Option.noConfusion this
  | some v =>
    have hv := (parseRawVersion_eq_some (bytes.take 27) v).mp hp
    have hex : ∃ d, d ≤ 5 ∧ bytes.take 27 = rawVersionBytes d := ⟨v, hv.1, hv.2⟩
    constructor
    · constructor
      · intro habs
        exact absurd habs (openKomWith_ne_format c bytes v)
      · intro hne
        exact absurd hex hne
    · intro k2 h2
      rw [openKomWith_ok_version c bytes v k2 h2]
      exact ⟨hv.1, hv.2⟩

/-- Concrete instantiation of C7 at a 60-byte all-zero input, which
fails with the format error, and whose header field matches no
version literal. -/
theorem C7_open_format_error_witness :
    60 ≤ (List.replicate 60 0).length
    ∧ ((Kom.openKom idCodec (List.replicate 60 0) = .error .formatError)
      ↔ ¬∃ d, d ≤ 5 ∧ (List.replicate 60 0).take 27 = rawVersionBytes d) :=
  ⟨by decide,
    (C7_open_format_error idCodec (List.replicate 60 0) (by decide)).1⟩

/-! ### Claim C8 -/

set_option maxRecDepth 8192 in
unseal List.merge List.mergeSort in
/-- C8 (code bug): the constructor guard `if version and not file_path`
treats the integer 0 as falsy, so `Kom(0)` falls through to the bare
`raise` although the format itself supports version 0 (the open path
accepts versions 0 through 5).  For versions 1 through 5 construction
succeeds and the version round-trips through serialize and open. -/
theorem C8_version_round_trip :
    Kom.init 0 = .error ()
    ∧ Kom.init 1 = .ok (Kom.empty 1)
    ∧ Kom.init 2 = .ok (Kom.empty 2)
    ∧ Kom.init 3 = .ok (Kom.empty 3)
    ∧ Kom.init 4 = .ok (Kom.empty 4)
    ∧ Kom.init 5 = .ok (Kom.empty 5)
    ∧ (Kom.openKom idCodec (Kom.toFile idCodec (Kom.empty 1)).2).toOption.map
        Kom.version = some 1
    ∧ (Kom.openKom idCodec (Kom.toFile idCodec (Kom.empty 2)).2).toOption.map
        Kom.version = some 2
    ∧ (Kom.openKom idCodec (Kom.toFile idCodec (Kom.empty 3)).2).toOption.map
        Kom.version = some 3
    ∧ (Kom.openKom idCodec (Kom.toFile idCodec (Kom.empty 4)).2).toOption.map
        Kom.version = some 4
    ∧ (Kom.openKom idCodec (Kom.toFile idCodec (Kom.empty 5)).2).toOption.map
        Kom.version = some 5
    ∧ ((Kom.toFile idCodec (Kom.empty 2)).2).take 27 = rawVersionBytes 2 := by
  refine ⟨rfl, rfl, rfl, rfl, rfl, rfl, ?_, ?_, ?_, ?_, ?_, ?_⟩ <;> decide

/-! ### Claim C1 -/

theorem flatten_pm_length :
    ∀ es : List Entry,
    ((es.map Entry.packedMetadata).flatten).length = 72 * es.length := by
  intro es
  induction es with
  | nil => rfl
  | cons e es ih =>
    simp only [List.map_cons, List.flatten_cons, List.length_append,
      packedMetadata_length, ih, List.length_cons]
    ring

set_option maxRecDepth 8192 in
unseal List.merge List.mergeSort in
/-- Counterexample to C1 as stated: the name constraints of the claim
(ASCII bytes, 1 to 60 bytes, unique, not crc.xml) admit the two-byte
name a NUL, yet the 60-byte name field is NUL-padded on write and
stripped of all trailing NUL bytes on read, so reopening the archive
yields the one-byte name a instead: the entry names are not
preserved. -/
theorem C1_round_trip_counterexample :
    (∀ p ∈ [([97, 0], ([] : List Nat))], p.1.all (fun b => b < 128) = true
      ∧ 1 ≤ p.1.length ∧ p.1.length ≤ 60 ∧ p.1 ≠ crcName)
    ∧ ([([97, 0], ([] : List Nat))].map Prod.fst).Nodup
    ∧ (Kom.openKom idCodec (Kom.toFile idCodec
        (addAll idCodec (Kom.empty 2) [([97, 0], [])])).2).toOption.map
        (fun k2 => k2.entries.map Entry.name) = some [[97]]
    ∧ ([97] : List Nat) ≠ [97, 0] := by
  refine ⟨by decide, by decide, by decide, by decide⟩

/-- C1 (corrected): round trip of names, uncompressed sizes and payload
bytes through serialize and open, under the claim name constraints
strengthened by the conditions the failure modes force: no name ends
in a NUL byte (the NUL-padded name field strips trailing NULs on
read), and the crc.xml document built for the final entry order must
parse back (`hxml`; minidom leaves ASCII control characters in
attribute values unescaped, so a name holding such a byte makes
`parseString` fail on reopen).  The numeric bounds reflect that
`struct.pack` only admits 32-bit values; the external compression is
any scheme whose decompression inverts it. -/
theorem C1_round_trip_amended (c : Codec) (v : Nat)
    (pairs : List (List Nat × List Nat))
    (_hv1 : 1 ≤ v) (hv5 : v ≤ 5)
    (hnames : ∀ p ∈ pairs, p.1.all (fun b => b < 128) = true ∧ 1 ≤ p.1.length
      ∧ p.1.length ≤ 60 ∧ p.1 ≠ crcName ∧ p.1.getLast? ≠ some 0)
    (hnodup : (pairs.map Prod.fst).Nodup)
    (hsizes : ∀ p ∈ pairs, p.2.length < 2 ^ 32)
    (hcount : pairs.length + 1 < 2 ^ 32)
    (hcrcU : (toFileCrcEntry c (addAll c (Kom.empty v) pairs)).uncompressed_size
      < 2 ^ 32)
    (hcrcO : (toFileCrcEntry c (addAll c (Kom.empty v) pairs)).relative_offset
      + (toFileCrcEntry c (addAll c (Kom.empty v) pairs)).compressed_size
      < 2 ^ 32)
    (hxml : c.parseStringOk (c.renderXml (buildCrc c
      (addAll c (Kom.empty v) pairs).version
      (sortEntries (addAll c (Kom.empty v) pairs).entries))) = true) :
    ∃ k2, Kom.openKom c (Kom.toFile c (addAll c (Kom.empty v) pairs)).2 = .ok k2
      ∧ (k2.entries.map (fun e => (e.name, e.uncompressed_size))).Perm
          (pairs.map (fun p => (p.1, p.2.length)))
      ∧ ∀ p ∈ pairs, ∃ e ∈ k2.entries, e.name = p.1
          ∧ e.uncompressed_size = p.2.length
          ∧ c.decompress e.data = some p.2 := by
  set es0 := pairs.map (fun p => Entry.fromFile c p.1 p.2) with hes0
  set crcE := toFileCrcEntry c (addAll c (Kom.empty v) pairs) with hcrcE
  have hes0len : es0.length = pairs.length := by
    rw [hes0, List.length_map]
  have hA : (addAll c (Kom.empty v) pairs).entries = es0 := by
    have := addAll_entries c pairs (Kom.empty v)
      (fun p hp => ⟨(hnames p hp).2.2.2.1, (hnames p hp).2.2.1⟩)
      hnodup (fun p hp e he => absurd he (List.not_mem_nil e))
    rw [hes0]
    simpa using this
  have hV : (addAll c (Kom.empty v) pairs).version = v :=
    (addAll_frame c pairs _).1
  have hxml2 : c.parseStringOk (c.renderXml (buildCrc c v (sortEntries es0)))
      = true := by
    rw [hA, hV] at hxml
    exact hxml
  have hcrcE2 : crcE = Entry.fromData c
      (c.renderXml (buildCrc c v (sortEntries es0))) crcName
      (relativeOffset (sortEntries es0)) := by
    rw [hcrcE]
    unfold toFileCrcEntry
    rw [hA, hV]
  have hmemS : ∀ e ∈ sortEntries es0, ∃ p ∈ pairs, e.name = p.1
      ∧ e.uncompressed_size = p.2.length
      ∧ e.compressed_size = (c.compress p.2).length
      ∧ e.data = c.compress p.2 := by
    intro e he
    obtain ⟨a, ha, h1, h2, h3, h4⟩ := mem_setOffsets _ 0 e he
    have ha2 : a ∈ es0 := (List.mergeSort_perm es0 entLe).mem_iff.mp ha
    rw [hes0] at ha2
    obtain ⟨p, hp, hpa⟩ := List.mem_map.mp ha2
    subst hpa
    exact ⟨p, hp, h1, h2, h3, h4⟩
  have hcsS : ∀ e ∈ sortEntries es0, e.compressed_size = e.data.length := by
    intro e he
    obtain ⟨p, hp, h1, h2, h3, h4⟩ := hmemS e he
    rw [h3, h4]
  have htiles : tiles 0 (sortEntries es0) := tiles_setOffsets _ 0
  have htotal : relativeOffset (sortEntries es0)
      = (((sortEntries es0).map Entry.data).flatten).length :=
    relativeOffset_zero_tiles _ htiles hcsS
  have hcrcOff : crcE.relative_offset = relativeOffset (sortEntries es0) := by
    rw [hcrcE2]
    rfl
  have hcrcCs : crcE.compressed_size = crcE.data.length := by
    rw [hcrcE2]
    rfl
  have hcrcNm : crcE.name = crcName := by
    rw [hcrcE2]
    rfl
  have hboundS : ∀ e ∈ sortEntries es0,
      e.relative_offset + e.compressed_size ≤ crcE.relative_offset := by
    intro e he
    have := tiles_mem_bound _ 0 htiles hcsS e he
    rw [hcrcOff, htotal]
    omega
  have hgood : ∀ e ∈ (sortEntries es0) ++ [crcE],
      goodMeta (((sortEntries es0).map Entry.data).flatten ++ crcE.data) e := by
    intro e he
    rcases List.mem_append.mp he with he | he
    · obtain ⟨p, hp, h1, h2, h3, h4⟩ := hmemS e he
      obtain ⟨p128, pmin, pmax, pcrc, plast⟩ := hnames p hp
      refine ⟨by rw [h1]; exact p128, by rw [h1]; exact pmax,
        by rw [h1]; exact plast, by rw [h2]; exact hsizes p hp, ?_, ?_, ?_⟩
      · have := hboundS e he
        omega
      · have := hboundS e he
        omega
      · have := take_drop_flatten_of_tiles (sortEntries es0) [] crcE.data 0
          rfl htiles hcsS e he
        simpa using this
    · have he2 : e = crcE := by simpa using he
      subst he2
      refine ⟨by rw [hcrcNm]; decide, by rw [hcrcNm]; decide,
        by rw [hcrcNm]; decide, hcrcU, by omega, by omega, ?_⟩
      rw [hcrcOff, htotal, List.drop_left' rfl, hcrcCs, List.take_length]
  have hparse : parseEntries (pairs.length + 1)
      ((((sortEntries es0) ++ [crcE]).map Entry.packedMetadata).flatten)
      (((sortEntries es0).map Entry.data).flatten ++ crcE.data)
      = .ok ((sortEntries es0) ++ [crcE]) := by
    have hlen : ((sortEntries es0) ++ [crcE]).length = pairs.length + 1 := by
      simp [sortEntries_length, hes0len]
    rw [← hlen]
    exact parseEntries_flatten _ _ hgood
  have hMlen : ((((sortEntries es0) ++ [crcE]).map Entry.packedMetadata).flatten).length
      = 72 * (pairs.length + 1) := by
    rw [flatten_pm_length]
    simp [sortEntries_length, hes0len]
  have hsnd : (Kom.toFile c (addAll c (Kom.empty v) pairs)).2
      = packHeader v (pairs.length + 1)
        ++ ((((sortEntries es0) ++ [crcE]).map Entry.packedMetadata).flatten
          ++ (((sortEntries es0).map Entry.data).flatten ++ crcE.data)) := by
    rw [toFile_snd, hV, hA, hcrcE, hes0len]
    simp [List.append_assoc]
  have hdata : crcE.data
      = c.compress (c.renderXml (buildCrc c v (sortEntries es0))) := by
    rw [hcrcE2]
    rfl
  have hdropB : (packHeader v (pairs.length + 1)
      ++ ((((sortEntries es0) ++ [crcE]).map Entry.packedMetadata).flatten
        ++ (((sortEntries es0).map Entry.data).flatten ++ crcE.data))).drop
          (60 + 72 * (pairs.length + 1))
      = ((sortEntries es0).map Entry.data).flatten ++ crcE.data := by
    have hshape : packHeader v (pairs.length + 1)
        ++ ((((sortEntries es0) ++ [crcE]).map Entry.packedMetadata).flatten
          ++ (((sortEntries es0).map Entry.data).flatten ++ crcE.data))
        = (packHeader v (pairs.length + 1)
            ++ (((sortEntries es0) ++ [crcE]).map Entry.packedMetadata).flatten)
          ++ (((sortEntries es0).map Entry.data).flatten ++ crcE.data) := by
      simp [List.append_assoc]
    rw [hshape, List.drop_left']
    rw [List.length_append, packHeader_length, hMlen]
  have hopen : Kom.openKom c (Kom.toFile c (addAll c (Kom.empty v) pairs)).2
      = .ok { version := v, entries := sortEntries es0,
              crc := some (.parsed (c.renderXml (buildCrc c v (sortEntries es0)))),
              crc_entry := some crcE } := by
    rw [hsnd]
    unfold Kom.openKom
    rw [if_neg (by rw [List.length_append, packHeader_length]; omega)]
    rw [packHeader_take27 v _ hv5, parseRawVersion_rawVersionBytes v hv5]
    dsimp only
    unfold openKomWith
    rw [packHeader_count, unpackU32_packU32_of_lt _ hcount, packHeader_drop60,
      List.take_left' hMlen, hdropB, hparse]
    dsimp only
    rw [List.getLast?_concat]
    dsimp only
    rw [hdata, c.decompress_compress]
    dsimp only
    rw [if_pos hxml2, List.dropLast_concat]
  refine ⟨_, hopen, ?_, ?_⟩
  · show ((sortEntries es0).map fun e => (e.name, e.uncompressed_size)).Perm _
    have h1 : ((sortEntries es0).map fun e => (e.name, e.uncompressed_size))
        = ((es0.mergeSort entLe).map fun e => (e.name, e.uncompressed_size)) :=
      setOffsets_map_nu _ 0
    have h2 : ((es0.mergeSort entLe).map
        fun e => (e.name, e.uncompressed_size)).Perm
        (es0.map fun e => (e.name, e.uncompressed_size)) :=
      (List.mergeSort_perm es0 entLe).map _
    have h3 : (es0.map fun e => (e.name, e.uncompressed_size))
        = pairs.map (fun p => (p.1, p.2.length)) := by
      rw [hes0, List.map_map]
      rfl
    rw [h1, ← h3]
    exact h2
  · intro p hp
    have h1 : Entry.fromFile c p.1 p.2 ∈ es0 := by
      rw [hes0]
      exact List.mem_map_of_mem _ hp
    have h2 : Entry.fromFile c p.1 p.2 ∈ es0.mergeSort entLe :=
      (List.mergeSort_perm es0 entLe).mem_iff.mpr h1
    obtain ⟨e, he, hn, hu, hc2, hd⟩ := exists_mem_setOffsets _ 0 _ h2
    refine ⟨e, he, hn, hu, ?_⟩
    rw [hd]
    exact c.decompress_compress p.2

set_option maxRecDepth 8192 in
unseal List.merge List.mergeSort in
/-- Concrete instantiation of the amended C1 at a one-entry archive. -/
theorem C1_round_trip_witness :
    ∃ k2, Kom.openKom idCodec (Kom.toFile idCodec
        (addAll idCodec (Kom.empty 2) [([97], [5])])).2 = .ok k2
      ∧ (k2.entries.map (fun e => (e.name, e.uncompressed_size))).Perm
          ([([97], [5])].map (fun p => (p.1, p.2.length)))
      ∧ ∀ p ∈ [(([97] : List Nat), ([5] : List Nat))], ∃ e ∈ k2.entries,
          e.name = p.1 ∧ e.uncompressed_size = p.2.length
          ∧ idCodec.decompress e.data = some p.2 :=
  C1_round_trip_amended idCodec 2 [([97], [5])] (by decide) (by decide)
    (by decide) (by decide) (by decide) (by decide) (by decide) (by decide)
    (by decide)
